import Mathlib

/-!
Verification of the evmone interpreter core: the push-immediate parsers of
test/internal_benchmarks/push_data_parsing.cpp and the dispatch loop of
lib/evmone/execution.cpp, shallowly embedded in Lean.

Bytes (C `uint8_t`) are modelled as `Fin 256`.  A C byte pointer into a
local fixed array is modelled as a function `Nat → Fin 256`; a code buffer
with its size (`code`, `code_end`) is modelled as a `List (Fin 256)`.
-/

/-- A machine byte, the value of a C `uint8_t`. -/
abbrev byte := Fin 256

/-- Shallow embedding of `load64be` (push_data_parsing.cpp): big-endian
load of 8 bytes into a `uint64_t` by shifts and bitwise or.  None of the
or-ed terms reaches `2^64`, so the C `uint64_t` arithmetic never wraps and
plain `Nat` arithmetic is exact. -/
def load64be (data : Nat → byte) : Nat :=
  (data 7).val ||| ((data 6).val <<< 8) ||| ((data 5).val <<< 16) |||
  ((data 4).val <<< 24) ||| ((data 3).val <<< 32) ||| ((data 2).val <<< 40) |||
  ((data 1).val <<< 48) ||| ((data 0).val <<< 56)

/-- Semantics of the `std::memcpy` in `load64be_fast`: reading 8 bytes of
memory into a `uint64_t` on a little-endian host (the host assumed by the
`memcpy` + `__builtin_bswap64` idiom of the source). -/
def load64le (data : Nat → byte) : Nat :=
  (data 0).val ||| ((data 1).val <<< 8) ||| ((data 2).val <<< 16) |||
  ((data 3).val <<< 24) ||| ((data 4).val <<< 32) ||| ((data 5).val <<< 40) |||
  ((data 6).val <<< 48) ||| ((data 7).val <<< 56)

/-- Semantics of the compiler builtin `__builtin_bswap64`: reverse the 8
bytes of a 64-bit value. -/
def bswap64 (x : Nat) : Nat :=
  ((x >>> 56) % 256) ||| (((x >>> 48) % 256) <<< 8) ||| (((x >>> 40) % 256) <<< 16) |||
  (((x >>> 32) % 256) <<< 24) ||| (((x >>> 24) % 256) <<< 32) |||
  (((x >>> 16) % 256) <<< 40) ||| (((x >>> 8) % 256) <<< 48) ||| ((x % 256) <<< 56)

/-- Shallow embedding of `load64be_fast` (push_data_parsing.cpp): memcpy
the 8 bytes into a `uint64_t`, then byte-swap. -/
def load64be_fast (data : Nat → byte) : Nat :=
  bswap64 (load64le data)

/-- Bitwise or with a shifted value is plain addition when the low part
fits below the shift amount. -/
theorem lor_shiftLeft_add {a b k : Nat} (h : a < 2 ^ k) : a ||| b <<< k = a + b <<< k := by
  apply Nat.eq_of_testBit_eq
  intro n
  rcases Nat.lt_or_ge n k with hn | hn
  · have hmod : (a + b <<< k) % 2 ^ k = a := by
      rw [Nat.shiftLeft_eq, Nat.add_mul_mod_self_right, Nat.mod_eq_of_lt h]
    have h1 : (a + b <<< k).testBit n = a.testBit n := by
      have h2 := Nat.testBit_mod_two_pow (a + b <<< k) k n
      rw [hmod] at h2
      simp [hn] at h2
      exact h2.symm
    have h3 : (b <<< k).testBit n = false := by
      simp [Nat.testBit_shiftLeft, Nat.not_le.mpr hn]
    rw [Nat.testBit_or, h3, h1, Bool.or_false]
  · have ha : a.testBit n = false :=
      Nat.testBit_lt_two_pow (lt_of_lt_of_le h (Nat.pow_le_pow_right (by omega) hn))
    have hd : (a + b <<< k) >>> k = b := by
      rw [Nat.shiftLeft_eq, Nat.shiftRight_eq_div_pow,
        Nat.add_mul_div_right _ _ (Nat.pos_pow_of_pos k (by omega)),
        Nat.div_eq_of_lt h, Nat.zero_add]
    have h4 : (a + b <<< k).testBit n = b.testBit (n - k) := by
      have h6 : ((a + b <<< k) >>> k).testBit (n - k) = (a + b <<< k).testBit (k + (n - k)) :=
        Nat.testBit_shiftRight _
      rw [hd] at h6
      rw [h6]
      congr 1
      omega
    rw [Nat.testBit_or, ha, h4, Bool.false_or]
    simp [Nat.testBit_shiftLeft, hn]

/-- The big-endian load expressed as a plain weighted sum of the bytes. -/
theorem load64be_eq_sum (d : Nat → byte) :
    load64be d = (d 7).val + (d 6).val * 2 ^ 8 + (d 5).val * 2 ^ 16 + (d 4).val * 2 ^ 24 +
      (d 3).val * 2 ^ 32 + (d 2).val * 2 ^ 40 + (d 1).val * 2 ^ 48 + (d 0).val * 2 ^ 56 := by
  have h7 := (d 7).isLt
  have h6 := (d 6).isLt
  have h5 := (d 5).isLt
  have h4 := (d 4).isLt
  have h3 := (d 3).isLt
  have h2 := (d 2).isLt
  have h1 := (d 1).isLt
  have h0 := (d 0).isLt
  unfold load64be
  rw [lor_shiftLeft_add (show (d 7).val < 2 ^ 8 by omega)]
  rw [lor_shiftLeft_add (show _ < 2 ^ 16 by omega)]
  rw [lor_shiftLeft_add (show _ < 2 ^ 24 by omega)]
  rw [lor_shiftLeft_add (show _ < 2 ^ 32 by omega)]
  rw [lor_shiftLeft_add (show _ < 2 ^ 40 by omega)]
  rw [lor_shiftLeft_add (show _ < 2 ^ 48 by omega)]
  rw [lor_shiftLeft_add (show _ < 2 ^ 56 by omega)]
  omega

/-- The little-endian load expressed as a plain weighted sum of the bytes. -/
theorem load64le_eq_sum (d : Nat → byte) :
    load64le d = (d 0).val + (d 1).val * 2 ^ 8 + (d 2).val * 2 ^ 16 + (d 3).val * 2 ^ 24 +
      (d 4).val * 2 ^ 32 + (d 5).val * 2 ^ 40 + (d 6).val * 2 ^ 48 + (d 7).val * 2 ^ 56 := by
  have h7 := (d 7).isLt
  have h6 := (d 6).isLt
  have h5 := (d 5).isLt
  have h4 := (d 4).isLt
  have h3 := (d 3).isLt
  have h2 := (d 2).isLt
  have h1 := (d 1).isLt
  have h0 := (d 0).isLt
  unfold load64le
  rw [lor_shiftLeft_add (show (d 0).val < 2 ^ 8 by omega)]
  rw [lor_shiftLeft_add (show _ < 2 ^ 16 by omega)]
  rw [lor_shiftLeft_add (show _ < 2 ^ 24 by omega)]
  rw [lor_shiftLeft_add (show _ < 2 ^ 32 by omega)]
  rw [lor_shiftLeft_add (show _ < 2 ^ 40 by omega)]
  rw [lor_shiftLeft_add (show _ < 2 ^ 48 by omega)]
  rw [lor_shiftLeft_add (show _ < 2 ^ 56 by omega)]
  omega

/-- The byte swap expressed as a plain weighted sum of the extracted bytes. -/
theorem bswap64_eq_sum (x : Nat) :
    bswap64 x = (x >>> 56) % 256 + ((x >>> 48) % 256) * 2 ^ 8 + ((x >>> 40) % 256) * 2 ^ 16 +
      ((x >>> 32) % 256) * 2 ^ 24 + ((x >>> 24) % 256) * 2 ^ 32 + ((x >>> 16) % 256) * 2 ^ 40 +
      ((x >>> 8) % 256) * 2 ^ 48 + (x % 256) * 2 ^ 56 := by
  unfold bswap64
  rw [lor_shiftLeft_add (show x >>> 56 % 256 < 2 ^ 8 by omega)]
  rw [lor_shiftLeft_add (show _ < 2 ^ 16 by omega)]
  rw [lor_shiftLeft_add (show _ < 2 ^ 24 by omega)]
  rw [lor_shiftLeft_add (show _ < 2 ^ 32 by omega)]
  rw [lor_shiftLeft_add (show _ < 2 ^ 40 by omega)]
  rw [lor_shiftLeft_add (show _ < 2 ^ 48 by omega)]
  rw [lor_shiftLeft_add (show _ < 2 ^ 56 by omega)]
  omega

set_option maxHeartbeats 1000000 in
/-- The memcpy-plus-byteswap load agrees with the shift-and-or big-endian load
on every 8-byte buffer. -/
theorem load64be_fast_eq (d : Nat → byte) : load64be_fast d = load64be d := by
  have h7 := (d 7).isLt
  have h6 := (d 6).isLt
  have h5 := (d 5).isLt
  have h4 := (d 4).isLt
  have h3 := (d 3).isLt
  have h2 := (d 2).isLt
  have h1 := (d 1).isLt
  have h0 := (d 0).isLt
  have e0 : load64le d >>> 56 % 256 = (d 7).val := by rw [load64le_eq_sum]; omega
  have e1 : load64le d >>> 48 % 256 = (d 6).val := by rw [load64le_eq_sum]; omega
  have e2 : load64le d >>> 40 % 256 = (d 5).val := by rw [load64le_eq_sum]; omega
  have e3 : load64le d >>> 32 % 256 = (d 4).val := by rw [load64le_eq_sum]; omega
  have e4 : load64le d >>> 24 % 256 = (d 3).val := by rw [load64le_eq_sum]; omega
  have e5 : load64le d >>> 16 % 256 = (d 2).val := by rw [load64le_eq_sum]; omega
  have e6 : load64le d >>> 8 % 256 = (d 1).val := by rw [load64le_eq_sum]; omega
  have e7 : load64le d % 256 = (d 0).val := by rw [load64le_eq_sum]; omega
  unfold load64be_fast
  rw [bswap64_eq_sum, e0, e1, e2, e3, e4, e5, e6, e7, load64be_eq_sum]

/-- Shallow embedding of the byte-copy loop shared by `orig` and
`orig_fast_load` (push_data_parsing.cpp): starting from loop counter `j`,
while `j < push_size` and `i + j < code_size`, store `code[i + j]` at
offset `leading_zeros + j` of the local 8-byte array, then increment `j`.
The array is modelled as a function `Nat → byte`.  The first `Nat`
argument is structural-recursion fuel, an artifact of the embedding: any
fuel at least `ps - j` (the callers pass `ps` with `j = 0`) makes the
guard `j < ps`, not the fuel, end the loop. -/
def fillPushData (code : List byte) (i lz ps : Nat) : Nat → Nat → (Nat → byte) → Nat → byte
  | 0, _, data => data
  | fuel + 1, j, data =>
    if j < ps ∧ i + j < code.length then
      fillPushData code i lz ps fuel (j + 1)
        (fun m => if m = lz + j then code.getD (i + j) 0 else data m)
    else data

/-- Shallow embedding of the byte-copy loop of `orig_noend`
(push_data_parsing.cpp), which omits the end-of-code bound check.  A read
past the end of the buffer is undefined behaviour in the C source; it is
modelled here as reading the byte `0`.  Fuel as in `fillPushData`. -/
def fillPushDataNoend (code : List byte) (i lz ps : Nat) : Nat → Nat → (Nat → byte) → Nat → byte
  | 0, _, data => data
  | fuel + 1, j, data =>
    if j < ps then
      fillPushDataNoend code i lz ps fuel (j + 1)
        (fun m => if m = lz + j then code.getD (i + j) 0 else data m)
    else data

/-- Variant of the `orig` byte-copy loop in which every read from the code
buffer is bounds-checked: the loop fails (returns `none`) if it would ever
read at an index that is not strictly below `code.length`.  Fuel as in
`fillPushData`. -/
def fillPushDataChecked (code : List byte) (i lz ps : Nat) :
    Nat → Nat → (Nat → byte) → Option (Nat → byte)
  | 0, _, data => some data
  | fuel + 1, j, data =>
    if j < ps ∧ i + j < code.length then
      match code.get? (i + j) with
      | some b =>
          fillPushDataChecked code i lz ps fuel (j + 1)
            (fun m => if m = lz + j then b else data m)
      | none => none
    else some data

/-- Shallow embedding of `orig` (push_data_parsing.cpp): parse the inline
immediate of a `PUSH1`..`PUSH8` opcode.  The `push_opcode` enum value is a
`Fin 8` with `PUSH1 = 0`; `code_pos` is the index of the opcode byte; the
C function advances the by-reference cursor by `push_size`, returned here
as the second component. -/
def orig (opcode : Fin 8) (code : List byte) (code_pos : Nat) : Nat × Nat :=
  let push_size := opcode.val + 1
  let leading_zeros := 8 - push_size
  let i := code_pos + 1
  (load64be (fillPushData code i leading_zeros push_size push_size 0 (fun _ => 0)),
   code_pos + push_size)

/-- Shallow embedding of `orig_fast_load` (push_data_parsing.cpp): same as
`orig` but the final load uses `load64be_fast`. -/
def orig_fast_load (opcode : Fin 8) (code : List byte) (code_pos : Nat) : Nat × Nat :=
  let push_size := opcode.val + 1
  let leading_zeros := 8 - push_size
  let i := code_pos + 1
  (load64be_fast (fillPushData code i leading_zeros push_size push_size 0 (fun _ => 0)),
   code_pos + push_size)

/-- Shallow embedding of `orig_noend` (push_data_parsing.cpp): same as
`orig` but the copy loop performs no end-of-code check. -/
def orig_noend (opcode : Fin 8) (code : List byte) (code_pos : Nat) : Nat × Nat :=
  let push_size := opcode.val + 1
  let leading_zeros := 8 - push_size
  let i := code_pos + 1
  (load64be (fillPushDataNoend code i leading_zeros push_size push_size 0 (fun _ => 0)),
   code_pos + push_size)

/-- Bounds-checked variant of `orig`, failing if any code read would be
out of bounds. -/
def origChecked (opcode : Fin 8) (code : List byte) (code_pos : Nat) : Option (Nat × Nat) :=
  let push_size := opcode.val + 1
  let leading_zeros := 8 - push_size
  let i := code_pos + 1
  (fillPushDataChecked code i leading_zeros push_size push_size 0 (fun _ => 0)).map
    (fun d => (load64be d, code_pos + push_size))

/-- Pointwise description of the bounds-checked copy loop: offset `m` of
the array holds the code byte `code[i + (m - lz)]` if the loop wrote it,
and the original array byte otherwise. -/
theorem fillPushData_applyFuel (code : List byte) (i lz ps : Nat) :
    ∀ (fuel j : Nat) (data : Nat → byte) (m : Nat), ps - j ≤ fuel →
      fillPushData code i lz ps fuel j data m =
        if lz ≤ m ∧ j ≤ m - lz ∧ m - lz < ps ∧ i + (m - lz) < code.length
        then code.getD (i + (m - lz)) 0 else data m := by
  intro fuel
  induction fuel with
  | zero =>
    intro j data m hn
    rw [fillPushData, if_neg (by omega)]
  | succ n ih =>
    intro j data m hn
    rw [fillPushData]
    by_cases hg : j < ps ∧ i + j < code.length
    · rw [if_pos hg, ih (j + 1) _ m (by omega)]
      by_cases hm : m = lz + j
      · have hj : m - lz = j := by omega
        rw [if_neg (by omega), if_pos (by omega), if_pos (by omega), hj]
      · by_cases hc : lz ≤ m ∧ j ≤ m - lz ∧ m - lz < ps ∧ i + (m - lz) < code.length
        · rw [if_pos (by omega), if_pos hc]
        · rw [if_neg (by omega), if_neg hm, if_neg hc]
    · rw [if_neg hg, if_neg (by omega)]

/-- Form of `fillPushData_applyFuel` for the call made by `orig`. -/
theorem fillPushData_apply (code : List byte) (i lz ps : Nat) (data : Nat → byte) (m : Nat) :
    fillPushData code i lz ps ps 0 data m =
      if lz ≤ m ∧ 0 ≤ m - lz ∧ m - lz < ps ∧ i + (m - lz) < code.length
      then code.getD (i + (m - lz)) 0 else data m :=
  fillPushData_applyFuel code i lz ps ps 0 data m (by omega)

/-- Pointwise description of the unchecked copy loop of `orig_noend`. -/
theorem fillPushDataNoend_applyFuel (code : List byte) (i lz ps : Nat) :
    ∀ (fuel j : Nat) (data : Nat → byte) (m : Nat), ps - j ≤ fuel →
      fillPushDataNoend code i lz ps fuel j data m =
        if lz ≤ m ∧ j ≤ m - lz ∧ m - lz < ps
        then code.getD (i + (m - lz)) 0 else data m := by
  intro fuel
  induction fuel with
  | zero =>
    intro j data m hn
    rw [fillPushDataNoend, if_neg (by omega)]
  | succ n ih =>
    intro j data m hn
    rw [fillPushDataNoend]
    by_cases hg : j < ps
    · rw [if_pos hg, ih (j + 1) _ m (by omega)]
      by_cases hm : m = lz + j
      · have hj : m - lz = j := by omega
        rw [if_neg (by omega), if_pos (by omega), if_pos (by omega), hj]
      · by_cases hc : lz ≤ m ∧ j ≤ m - lz ∧ m - lz < ps
        · rw [if_pos (by omega), if_pos hc]
        · rw [if_neg (by omega), if_neg hm, if_neg hc]
    · rw [if_neg hg, if_neg (by omega)]

/-- Form of `fillPushDataNoend_applyFuel` for the call made by
`orig_noend`. -/
theorem fillPushDataNoend_apply (code : List byte) (i lz ps : Nat) (data : Nat → byte)
    (m : Nat) :
    fillPushDataNoend code i lz ps ps 0 data m =
      if lz ≤ m ∧ 0 ≤ m - lz ∧ m - lz < ps
      then code.getD (i + (m - lz)) 0 else data m :=
  fillPushDataNoend_applyFuel code i lz ps ps 0 data m (by omega)

/-- The bounds-checked copy loop never fails: its guard keeps every code
read strictly below the code size, so it computes exactly the unchecked
array. -/
theorem fillPushDataChecked_eq (code : List byte) (i lz ps : Nat) :
    ∀ (fuel j : Nat) (data : Nat → byte),
      fillPushDataChecked code i lz ps fuel j data =
        some (fillPushData code i lz ps fuel j data) := by
  intro fuel
  induction fuel with
  | zero =>
    intro j data
    rw [fillPushDataChecked, fillPushData]
  | succ n ih =>
    intro j data
    rw [fillPushDataChecked, fillPushData]
    by_cases hg : j < ps ∧ i + j < code.length
    · rw [if_pos hg, if_pos hg]
      have hgd : code.getD (i + j) 0 = code.get ⟨i + j, hg.2⟩ := by
        rw [List.getD_eq_getElem?_getD, List.getElem?_eq_getElem hg.2]
        rfl
      rw [List.get?_eq_get hg.2]
      simp only []
      rw [hgd]
      exact ih (j + 1) _
    · rw [if_neg hg, if_neg hg]

/-- Value-level form of the padded read of a byte list: bounds-checking
the index changes nothing, because the defaulted read is `0` out of
bounds anyway. -/
theorem ite_getD_val (code : List byte) (n : Nat) :
    ((if n < code.length then (code[n]?).getD 0 else 0) : byte).val = ((code[n]?).getD 0).val := by
  split
  · rfl
  · rw [List.getElem?_eq_none (by omega)]
    rfl

/-- A big-endian load whose first `lz` bytes are zero is below
`2 ^ (8 * (8 - lz))`. -/
theorem load64be_lt (d : Nat → byte) (lz : Nat) (hlz : lz ≤ 8)
    (hz : ∀ m, m < lz → d m = 0) : load64be d < 2 ^ (8 * (8 - lz)) := by
  have h7 := (d 7).isLt
  have h6 := (d 6).isLt
  have h5 := (d 5).isLt
  have h4 := (d 4).isLt
  have h3 := (d 3).isLt
  have h2 := (d 2).isLt
  have h1 := (d 1).isLt
  have h0 := (d 0).isLt
  have hv : ∀ m, m < lz → (d m).val = 0 := by
    intro m hm
    rw [hz m hm]
    rfl
  rw [load64be_eq_sum]
  interval_cases lz
  · norm_num
    omega
  · have v0 := hv 0 (by omega)
    norm_num
    omega
  · have v0 := hv 0 (by omega)
    have v1 := hv 1 (by omega)
    norm_num
    omega
  · have v0 := hv 0 (by omega)
    have v1 := hv 1 (by omega)
    have v2 := hv 2 (by omega)
    norm_num
    omega
  · have v0 := hv 0 (by omega)
    have v1 := hv 1 (by omega)
    have v2 := hv 2 (by omega)
    have v3 := hv 3 (by omega)
    norm_num
    omega
  · have v0 := hv 0 (by omega)
    have v1 := hv 1 (by omega)
    have v2 := hv 2 (by omega)
    have v3 := hv 3 (by omega)
    have v4 := hv 4 (by omega)
    norm_num
    omega
  · have v0 := hv 0 (by omega)
    have v1 := hv 1 (by omega)
    have v2 := hv 2 (by omega)
    have v3 := hv 3 (by omega)
    have v4 := hv 4 (by omega)
    have v5 := hv 5 (by omega)
    norm_num
    omega
  · have v0 := hv 0 (by omega)
    have v1 := hv 1 (by omega)
    have v2 := hv 2 (by omega)
    have v3 := hv 3 (by omega)
    have v4 := hv 4 (by omega)
    have v5 := hv 5 (by omega)
    have v6 := hv 6 (by omega)
    norm_num
    omega
  · have v0 := hv 0 (by omega)
    have v1 := hv 1 (by omega)
    have v2 := hv 2 (by omega)
    have v3 := hv 3 (by omega)
    have v4 := hv 4 (by omega)
    have v5 := hv 5 (by omega)
    have v6 := hv 6 (by omega)
    have v7 := hv 7 (by omega)
    norm_num
    omega

/-- The inline push argument as the spec words it: for a PUSH opcode with
`n` data bytes at position `pos`, read up to `n` bytes big-endian starting
at `pos + 1`, reading bytes past the end of code as zero.  This definition
follows the spec text and is compared against the source-derived parser
`orig`. -/
def pushValueSpec (n : Nat) (code : List byte) (pos : Nat) : Nat :=
  (List.range n).foldl (fun acc j => acc * 256 + (code.getD (pos + 1 + j) 0).val) 0

/-- Claim C3: for every PUSH1..PUSH8 opcode at any position in any code
buffer, the inline-immediate parser `orig` computes exactly the big-endian
value of the up-to-8-byte immediate, reading bytes past the end of code as
zero, and advances the code position by exactly the push data size, also
when the immediate is truncated by the end of code. -/
theorem claim_C3 (opcode : Fin 8) (code : List byte) (code_pos : Nat) :
    (orig opcode code code_pos).1 = pushValueSpec (opcode.val + 1) code code_pos ∧
    (orig opcode code code_pos).2 = code_pos + (opcode.val + 1) := by
  constructor
  · rcases opcode with ⟨k, hk⟩
    show load64be (fillPushData code (code_pos + 1) (8 - (k + 1)) (k + 1) (k + 1) 0 (fun _ => 0)) =
      pushValueSpec (k + 1) code code_pos
    interval_cases k <;>
      (rw [load64be_eq_sum]
       simp only [fillPushData_apply]
       norm_num [pushValueSpec, List.range_succ, show ((0 : byte)).val = 0 from rfl]
       simp only [ite_getD_val]
       try omega)
  · rfl

/-- Claim C8: the shift-and-or big-endian load `load64be` and the
memcpy-plus-byteswap load `load64be_fast` agree on every 8-byte buffer;
consequently the push parsers `orig` and `orig_fast_load` agree on every
input. -/
theorem claim_C8 :
    (∀ d : Nat → byte, load64be_fast d = load64be d) ∧
    ∀ (opcode : Fin 8) (code : List byte) (code_pos : Nat),
      orig_fast_load opcode code code_pos = orig opcode code code_pos := by
  refine ⟨load64be_fast_eq, ?_⟩
  intro opcode code code_pos
  simp only [orig_fast_load, orig]
  rw [load64be_fast_eq]

/-- Claim C9: when the full PUSH immediate lies within the code buffer,
the bounds-checked parser `orig` and the unchecked parser `orig_noend`
return the same value and leave the code position at the same place. -/
theorem claim_C9 (opcode : Fin 8) (code : List byte) (code_pos : Nat)
    (h : code_pos + 1 + (opcode.val + 1) ≤ code.length) :
    orig_noend opcode code code_pos = orig opcode code code_pos := by
  simp only [orig_noend, orig]
  have hd : fillPushDataNoend code (code_pos + 1) (8 - (opcode.val + 1)) (opcode.val + 1)
      (opcode.val + 1) 0 (fun _ => 0) =
      fillPushData code (code_pos + 1) (8 - (opcode.val + 1)) (opcode.val + 1)
      (opcode.val + 1) 0 (fun _ => 0) := by
    funext m
    rw [fillPushDataNoend_apply, fillPushData_apply]
    by_cases hc : 8 - (opcode.val + 1) ≤ m ∧ 0 ≤ m - (8 - (opcode.val + 1)) ∧
        m - (8 - (opcode.val + 1)) < opcode.val + 1
    · rw [if_pos hc, if_pos (by omega)]
    · rw [if_neg hc, if_neg (by omega)]
  rw [hd]

/-- Witness for `claim_C9` at a concrete input: a PUSH1 at position 0 of
the two-byte code `60 05`. -/
theorem claim_C9_witness :
    0 + 1 + ((0 : Fin 8).val + 1) ≤ ([96, 5] : List byte).length ∧
    orig_noend 0 ([96, 5] : List byte) 0 = orig 0 ([96, 5] : List byte) 0 :=
  ⟨by decide, claim_C9 0 ([96, 5] : List byte) 0 (by decide)⟩

/-- Claim C10: the value parsed by `orig` for a PUSH with `n` data bytes is
strictly below `2 ^ (8 n)` (only the low `n` bytes of the 64-bit result can
be non-zero), and a bounds-checked run of the same loop succeeds with the
same result, so every code read happens at an index strictly below the
code size. -/
theorem claim_C10 (opcode : Fin 8) (code : List byte) (code_pos : Nat) :
    (orig opcode code code_pos).1 < 2 ^ (8 * (opcode.val + 1)) ∧
    origChecked opcode code code_pos = some (orig opcode code code_pos) := by
  constructor
  · have hz : ∀ m, m < 8 - (opcode.val + 1) →
        fillPushData code (code_pos + 1) (8 - (opcode.val + 1)) (opcode.val + 1)
          (opcode.val + 1) 0 (fun _ => 0) m = 0 := by
      intro m hm
      rw [fillPushData_apply, if_neg (by omega)]
    have hb := load64be_lt
      (fillPushData code (code_pos + 1) (8 - (opcode.val + 1)) (opcode.val + 1)
        (opcode.val + 1) 0 (fun _ => 0))
      (8 - (opcode.val + 1)) (by omega) hz
    have hk := opcode.isLt
    have he : 8 * (8 - (8 - (opcode.val + 1))) = 8 * (opcode.val + 1) := by omega
    rw [he] at hb
    exact hb
  · simp only [origChecked, orig]
    rw [fillPushDataChecked_eq]
    rfl

/-- Status codes of the execution state, from the spec data model (the
evmc status codes the interpreter assigns). -/
inductive status_code where
  | success
  | revert
  | out_of_gas
  | stack_underflow
  | stack_overflow
  | invalid_instruction
  | bad_jump_destination
  | invalid_memory_access
  | call_depth_exceeded
  | static_mode_violation
  | precompile_failure
  | undefined_instruction
deriving DecidableEq

/-- The argument of a pre-decoded instruction, from the spec data model
(`analysis.hpp` is not among the sources): none, a small inline
immediate, an index into the argument pool, or a basic-block header. -/
inductive instr_argument where
  | empty
  | small (v : Nat)
  | pooled (idx : Nat)
  | block (gas_cost stack_req stack_max_growth : Nat)
deriving DecidableEq

/-- The execution state of lib/evmone/execution.cpp, restricted to the
fields that the dispatch loop and the result marshalling of `execute`
read or write: the signed 64-bit gas counter, the cursor into the
pre-decoded instruction stream (`none` models the null pointer), the
status, the output window and the memory.  The remaining fields (stack,
message, code, host, revision) are consumed only by the instruction
implementations, which are abstract here. -/
structure execution_state where
  gas_left : Int
  next_instr : Option Nat
  status : status_code
  output_offset : Nat
  output_size : Nat
  memory : List byte
deriving DecidableEq

/-- A pre-decoded instruction `{fn, arg}` (spec data model; `analysis.hpp`
is not among the sources).  The instruction implementations live in
instructions.cpp, also not among the sources, so `fn` is an abstract
state transformer receiving the execution state and the instruction
argument, exactly as the dispatch loop invokes it. -/
structure instruction where
  fn : execution_state → instr_argument → execution_state
  arg : instr_argument

/-- The dispatch loop of `execute` (execution.cpp lines 32-40): while
`next_instr` is not null, read the instruction at the cursor, advance the
cursor past it, and invoke the instruction function on the state and the
instruction's argument.  The `Nat` argument is fuel, an artifact of the
embedding: `none` means the loop has not exited within that many
iterations, or read outside the instruction array (undefined behaviour in
the C source).  The termination theorem below shows adequate fuel always
exists for well-formed analyses. -/
def dispatch_loop (instrs : List instruction) : Nat → execution_state → Option execution_state
  | 0, _ => none
  | fuel + 1, s =>
    match s.next_instr with
    | none => some s
    | some i =>
      match instrs[i]? with
      | none => none
      | some instr =>
          dispatch_loop instrs fuel (instr.fn { s with next_instr := some (i + 1) } instr.arg)

/-- The message fields of `evmc_message` read by `execute` itself: only
the gas limit feeds the state construction modelled here; the other
fields are consumed by the abstract instruction implementations. -/
structure evmc_message where
  gas : Int

/-- The fresh execution state `execute` constructs before entering the
loop (execution.cpp lines 23-30): cursor at instruction 0, `gas_left`
from the message; the remaining fields are the defaults of
`execution_state` (modelled from the spec: status success, empty output
window, empty memory). -/
def initial_state (msg : evmc_message) : execution_state :=
  { gas_left := msg.gas
    next_instr := some 0
    status := status_code.success
    output_offset := 0
    output_size := 0
    memory := [] }

/-- The result returned by `execute`: status, remaining gas, output
bytes. -/
structure evmc_result where
  status : status_code
  gas_left : Int
  output : List byte
deriving DecidableEq

/-- The result marshalling at the end of `execute` (execution.cpp lines
42-46): `gas_left` is kept only for status success or revert and zeroed
otherwise, and the output is the `output_size`-byte window of memory at
`output_offset`. -/
def make_result (s : execution_state) : evmc_result :=
  { status := s.status
    gas_left := if s.status = status_code.success ∨ s.status = status_code.revert
      then s.gas_left else 0
    output := (s.memory.drop s.output_offset).take s.output_size }

/-- Shallow embedding of `execute` (execution.cpp lines 18-47): analyze
the code once with the opcode table of the requested revision, construct
a fresh execution state, run the dispatch loop, and marshal the final
state into a result.  The analyzer (analysis.cpp) is not among the
sources, so it is an abstract parameter, as are the types of opcode
tables, revisions and code; the host context of the C signature is
captured inside the abstract instruction functions.  Fuel as in
`dispatch_loop`. -/
def execute {Table Rev Code : Type} (op_table : Rev → Table)
    (analyze : Table → Rev → Code → List instruction) (rev : Rev) (msg : evmc_message)
    (code : Code) (fuel : Nat) : Option evmc_result :=
  (dispatch_loop (analyze (op_table rev) rev code) fuel (initial_state msg)).map make_result

/-- Whenever the dispatch loop exits, the final cursor is null: the loop
runs exactly until `next_instr` is null. -/
theorem dispatch_loop_final_cursor (instrs : List instruction) :
    ∀ (fuel : Nat) (s f : execution_state),
      dispatch_loop instrs fuel s = some f → f.next_instr = none := by
  intro fuel
  induction fuel with
  | zero =>
    intro s f h
    simp [dispatch_loop] at h
  | succ n ih =>
    intro s f h
    rw [dispatch_loop] at h
    cases hcur : s.next_instr with
    | none =>
      simp only [hcur, Option.some.injEq] at h
      subst h
      exact hcur
    | some i =>
      simp only [hcur] at h
      cases hget : instrs[i]? with
      | none => simp [hget] at h
      | some instr =>
        simp only [hget] at h
        exact ih _ f h

/-- Running the dispatch loop with more fuel cannot change an outcome it
has already produced. -/
theorem dispatch_loop_mono (instrs : List instruction) :
    ∀ (fuel1 fuel2 : Nat) (s f : execution_state), fuel1 ≤ fuel2 →
      dispatch_loop instrs fuel1 s = some f → dispatch_loop instrs fuel2 s = some f := by
  intro fuel1
  induction fuel1 with
  | zero =>
    intro fuel2 s f hle h
    simp [dispatch_loop] at h
  | succ n ih =>
    intro fuel2 s f hle h
    obtain ⟨m, rfl⟩ : ∃ m, fuel2 = m + 1 := ⟨fuel2 - 1, by omega⟩
    rw [dispatch_loop] at h
    rw [dispatch_loop]
    cases hcur : s.next_instr with
    | none =>
      simp only [hcur] at h ⊢
      exact h
    | some i =>
      simp only [hcur] at h ⊢
      cases hget : instrs[i]? with
      | none => simp [hget] at h
      | some instr =>
        simp only [hget] at h ⊢
        exact ih m _ f (by omega) h

/-- A concrete one-instruction program: a STOP-like instruction that only
clears the cursor.  Used to instantiate dispatch-loop theorems on
concrete inputs. -/
def stop_instruction : instruction :=
  ⟨fun s _ => { s with next_instr := none }, instr_argument.empty⟩

/-- Claim C2: every iteration of the dispatch loop reads the instruction
at the cursor, advances the cursor past it before invoking the
instruction function on the state and the instruction's argument (so a
function not touching the cursor yields linear flow, a jump may overwrite
it, a terminator may null it), and the loop runs exactly until the cursor
is null: a state with null cursor exits at once, and every exit state has
a null cursor. -/
theorem claim_C2 (instrs : List instruction) (fuel : Nat) (s : execution_state) :
    (s.next_instr = none → dispatch_loop instrs (fuel + 1) s = some s) ∧
    (∀ i instr, s.next_instr = some i → instrs[i]? = some instr →
      dispatch_loop instrs (fuel + 1) s =
        dispatch_loop instrs fuel (instr.fn { s with next_instr := some (i + 1) } instr.arg)) ∧
    (∀ f, dispatch_loop instrs fuel s = some f → f.next_instr = none) := by
  refine ⟨?_, ?_, fun f h => dispatch_loop_final_cursor instrs fuel s f h⟩
  · intro h
    rw [dispatch_loop]
    simp only [h]
  · intro i instr hi hinstr
    rw [dispatch_loop]
    simp only [hi, hinstr]

/-- Witness for `claim_C2`: one iteration on a concrete one-instruction
program. -/
theorem claim_C2_witness :
    dispatch_loop [stop_instruction] 1 (initial_state ⟨5⟩) =
      dispatch_loop [stop_instruction] 0
        (stop_instruction.fn { initial_state ⟨5⟩ with next_instr := some 1 }
          stop_instruction.arg) :=
  (claim_C2 [stop_instruction] 0 (initial_state ⟨5⟩)).2.1 0 stop_instruction rfl rfl

/-- Claim C5: `execute` is deterministic.  The host-observed values are
fixed inside the abstract instruction functions produced by the analyzer,
so identical (host behaviour, revision, message, code) means identical
arguments here; any two terminating runs, even with different fuel
bounds of the embedding, return bit-identical results. -/
theorem claim_C5 {Table Rev Code : Type} (op_table : Rev → Table)
    (analyze : Table → Rev → Code → List instruction) (rev : Rev) (msg : evmc_message)
    (code : Code) (fuel1 fuel2 : Nat) (r1 r2 : evmc_result)
    (h1 : execute op_table analyze rev msg code fuel1 = some r1)
    (h2 : execute op_table analyze rev msg code fuel2 = some r2) : r1 = r2 := by
  rw [execute] at h1 h2
  cases hl1 : dispatch_loop (analyze (op_table rev) rev code) fuel1 (initial_state msg) with
  | none =>
    rw [hl1] at h1
    simp at h1
  | some f1 =>
    rw [hl1] at h1
    simp only [Option.map_some', Option.some.injEq] at h1
    cases hl2 : dispatch_loop (analyze (op_table rev) rev code) fuel2 (initial_state msg) with
    | none =>
      rw [hl2] at h2
      simp at h2
    | some f2 =>
      rw [hl2] at h2
      simp only [Option.map_some', Option.some.injEq] at h2
      have hf : f1 = f2 := by
        rcases Nat.le_total fuel1 fuel2 with hle | hle
        · have hm := dispatch_loop_mono _ fuel1 fuel2 _ _ hle hl1
          exact Option.some.inj (hm.symm.trans hl2)
        · have hm := dispatch_loop_mono _ fuel2 fuel1 _ _ hle hl2
          exact (Option.some.inj (hm.symm.trans hl1)).symm
      rw [← h1, ← h2, hf]

/-- Witness for `claim_C5`: two runs of a concrete one-instruction
program with different fuel bounds give the same result. -/
theorem claim_C5_witness :
    ({ status := status_code.success, gas_left := 7, output := [] } : evmc_result) =
      { status := status_code.success, gas_left := 7, output := [] } :=
  claim_C5 (fun _ : Unit => ()) (fun _ _ _ => [stop_instruction]) () ⟨7⟩ () 2 3
    { status := status_code.success, gas_left := 7, output := [] }
    { status := status_code.success, gas_left := 7, output := [] }
    (by decide) (by decide)

/-- Modelled from the spec: the contract of the instruction
implementations (instructions.cpp, not among the sources) towards status
and output.  Terminating instructions set status and clear the cursor
together; only the halting instructions RETURN, REVERT and STOP leave
status success or revert, and only RETURN and REVERT set a non-empty
output window; while execution continues the state keeps status success
and an empty output window. -/
def output_discipline (ins : instruction) : Prop :=
  ∀ s, s.status = status_code.success → s.output_size = 0 →
    ((ins.fn s ins.arg).next_instr = none →
      (ins.fn s ins.arg).status = status_code.success ∨
        (ins.fn s ins.arg).status = status_code.revert ∨
        (ins.fn s ins.arg).output_size = 0) ∧
    ((ins.fn s ins.arg).next_instr ≠ none →
      (ins.fn s ins.arg).status = status_code.success ∧ (ins.fn s ins.arg).output_size = 0)

/-- State invariant maintained by `output_discipline` programs: while
running, status success and empty output window; when halted, status
success or revert or an empty output window. -/
def output_inv (s : execution_state) : Prop :=
  (s.next_instr ≠ none → s.status = status_code.success ∧ s.output_size = 0) ∧
  (s.next_instr = none →
    s.status = status_code.success ∨ s.status = status_code.revert ∨ s.output_size = 0)

/-- The dispatch loop preserves `output_inv` for `output_discipline`
programs. -/
theorem dispatch_loop_output_inv (instrs : List instruction)
    (hins : ∀ ins ∈ instrs, output_discipline ins) :
    ∀ (fuel : Nat) (s f : execution_state), output_inv s →
      dispatch_loop instrs fuel s = some f → output_inv f := by
  intro fuel
  induction fuel with
  | zero =>
    intro s f hs h
    simp [dispatch_loop] at h
  | succ n ih =>
    intro s f hs h
    rw [dispatch_loop] at h
    cases hcur : s.next_instr with
    | none =>
      simp only [hcur, Option.some.injEq] at h
      subst h
      exact hs
    | some i =>
      simp only [hcur] at h
      cases hget : instrs[i]? with
      | none => simp [hget] at h
      | some instr =>
        simp only [hget] at h
        have hmem : instr ∈ instrs := List.getElem?_mem hget
        have hsucc : s.status = status_code.success ∧ s.output_size = 0 :=
          hs.1 (by simp [hcur])
        have hdisc := hins instr hmem { s with next_instr := some (i + 1) } hsucc.1 hsucc.2
        exact ih _ f ⟨hdisc.2, hdisc.1⟩ h

/-- Claim C1: for every terminated run of the dispatch loop of `execute`
(instruction implementations modelled from the spec through
`output_discipline`), the marshalled result keeps `gas_left` exactly when
the final status is success or revert, and for every other final status
the result has `gas_left` zero and an empty output. -/
theorem claim_C1 (instrs : List instruction) (msg : evmc_message) (fuel : Nat)
    (f : execution_state) (hins : ∀ ins ∈ instrs, output_discipline ins)
    (hrun : dispatch_loop instrs fuel (initial_state msg) = some f) :
    ((f.status = status_code.success ∨ f.status = status_code.revert) →
      (make_result f).gas_left = f.gas_left) ∧
    (¬(f.status = status_code.success ∨ f.status = status_code.revert) →
      (make_result f).gas_left = 0 ∧ (make_result f).output = []) := by
  constructor
  · intro h
    simp only [make_result]
    rw [if_pos h]
  · intro h
    have hfc := dispatch_loop_final_cursor instrs fuel _ f hrun
    have hinit : output_inv (initial_state msg) := by
      constructor
      · intro _
        exact ⟨rfl, rfl⟩
      · intro hnone
        simp [initial_state] at hnone
    have hinv := dispatch_loop_output_inv instrs hins fuel _ f hinit hrun
    have hsize : f.output_size = 0 := by
      rcases hinv.2 hfc with h1 | h1 | h1
      · exact absurd (Or.inl h1) h
      · exact absurd (Or.inr h1) h
      · exact h1
    constructor
    · simp only [make_result]
      rw [if_neg h]
    · simp [make_result, hsize]

/-- The final state of a STOP-only run started with 5 gas, used by
concrete witnesses. -/
def stop_final_state : execution_state :=
  { gas_left := 5
    next_instr := none
    status := status_code.success
    output_offset := 0
    output_size := 0
    memory := [] }

/-- Witness for `claim_C1`: a concrete STOP-only run, final status
success, result keeps the gas. -/
theorem claim_C1_witness : (make_result stop_final_state).gas_left = 5 :=
  (claim_C1 [stop_instruction] ⟨5⟩ 2 stop_final_state
    (by
      intro ins hmem s hs ho
      simp only [List.mem_singleton] at hmem
      subst hmem
      exact ⟨fun _ => Or.inl hs, fun hne => absurd rfl hne⟩)
    (by decide)).1 (Or.inl rfl)

/-- Modelled from the spec, gas monotonicity: the instruction
implementations (not among the sources) never increase `gas_left` during
execution; refunds are applied only at result time. -/
def gas_nonincreasing (ins : instruction) : Prop :=
  ∀ s, (ins.fn s ins.arg).gas_left ≤ s.gas_left

/-- One iteration of the dispatch loop, as a relation on execution
states. -/
inductive dispatch_step (instrs : List instruction) :
    execution_state → execution_state → Prop where
  | step (s : execution_state) (i : Nat) (instr : instruction) :
      s.next_instr = some i → instrs[i]? = some instr →
      dispatch_step instrs s (instr.fn { s with next_instr := some (i + 1) } instr.arg)

/-- States the dispatch loop reaches from a given state. -/
inductive dispatch_reaches (instrs : List instruction) :
    execution_state → execution_state → Prop where
  | refl (s : execution_state) : dispatch_reaches instrs s s
  | tail (s t u : execution_state) : dispatch_reaches instrs s t →
      dispatch_step instrs t u → dispatch_reaches instrs s u

/-- Claim C7: `execute` invokes the analyzer exactly once -- its whole
behaviour is the dispatch loop run over the single analysis of (opcode
table of the revision, revision, code) -- started from a fresh state
whose `gas_left` is `msg.gas` and whose cursor is the first pre-decoded
instruction; and, with the spec-modelled fact that instructions only
deduct gas, every state the loop reaches from there keeps
`gas_left ≤ msg.gas`. -/
theorem claim_C7 {Table Rev Code : Type} (op_table : Rev → Table)
    (analyze : Table → Rev → Code → List instruction) (rev : Rev) (msg : evmc_message)
    (code : Code) (fuel : Nat)
    (hgas : ∀ ins ∈ analyze (op_table rev) rev code, gas_nonincreasing ins) :
    execute op_table analyze rev msg code fuel =
      (dispatch_loop (analyze (op_table rev) rev code) fuel (initial_state msg)).map
        make_result ∧
    (initial_state msg).gas_left = msg.gas ∧
    (initial_state msg).next_instr = some 0 ∧
    (∀ s, dispatch_reaches (analyze (op_table rev) rev code) (initial_state msg) s →
      s.gas_left ≤ msg.gas) := by
  refine ⟨rfl, rfl, rfl, ?_⟩
  intro s hr
  induction hr with
  | refl => exact le_of_eq rfl
  | tail t u hst hstep ih =>
    cases hstep with
    | step i instr hcur hget =>
      have hmem : instr ∈ analyze (op_table rev) rev code := List.getElem?_mem hget
      have h1 := hgas instr hmem { t with next_instr := some (i + 1) }
      exact le_trans h1 ih

/-- Witness for `claim_C7` on a concrete one-instruction program. -/
theorem claim_C7_witness :
    execute (fun _ : Unit => ()) (fun _ _ _ => [stop_instruction]) () ⟨7⟩ () 2 =
      (dispatch_loop [stop_instruction] 2 (initial_state ⟨7⟩)).map make_result ∧
    (initial_state ⟨7⟩).gas_left = (7 : Int) ∧
    (initial_state ⟨7⟩).next_instr = some 0 ∧
    (∀ s, dispatch_reaches [stop_instruction] (initial_state ⟨7⟩) s →
      s.gas_left ≤ (7 : Int)) :=
  claim_C7 (fun _ : Unit => ()) (fun _ _ _ => [stop_instruction]) () ⟨7⟩ () 2
    (by
      intro ins hmem s
      simp only [List.mem_singleton] at hmem
      subst hmem
      exact le_refl _)

/-- Modelled from the spec: a gas-burning instruction -- whenever it lets
execution continue it has strictly decreased `gas_left`.  The block-header
instruction of a block entered through a jump is of this kind: a valid
jump target is a `JUMPDEST`, whose positive cost is part of the block
header, so the precheck either fails (clearing the cursor) or deducts
positive gas. -/
def burns_gas (ins : instruction) : Prop :=
  ∀ s, (ins.fn s ins.arg).next_instr = none ∨ (ins.fn s ins.arg).gas_left < s.gas_left

/-- Modelled from the spec, the contract of a pre-decoded instruction
towards the dispatch loop (spec 4.1, 4.3, 4.4): it never increases
`gas_left` and keeps it non-negative while execution continues, and it
either clears the cursor (terminators and failed prechecks), leaves it
untouched (linear flow), or overwrites it with the position of the
block-header instruction of a jump-destination block, which burns gas. -/
def wf_instruction (instrs : List instruction) (ins : instruction) : Prop :=
  ∀ s, 0 ≤ s.gas_left →
    ((ins.fn s ins.arg).gas_left ≤ s.gas_left ∧
      ((ins.fn s ins.arg).next_instr = none ∨ 0 ≤ (ins.fn s ins.arg).gas_left)) ∧
    ((ins.fn s ins.arg).next_instr = none ∨ (ins.fn s ins.arg).next_instr = s.next_instr ∨
      ∃ t insT, (ins.fn s ins.arg).next_instr = some t ∧ instrs[t]? = some insT ∧
        burns_gas insT)

/-- Modelled from the spec, the shape the analyzer (analysis.cpp, not
among the sources) guarantees for every analysis: the instruction vector
is non-empty and its last entry is the synthetic STOP appended at end of
code, whose function clears the cursor; and every instruction obeys the
dispatch contract `wf_instruction`. -/
structure wf_program (instrs : List instruction) : Prop where
  instrs_nonempty : instrs ≠ []
  instrs_wf : ∀ ins ∈ instrs, wf_instruction instrs ins
  last_halts : ∃ ins, instrs[instrs.length - 1]? = some ins ∧
    ∀ s, (ins.fn s ins.arg).next_instr = none

/-- Loop invariant: either halted, or gas non-negative and cursor in
bounds. -/
def running_inv (instrs : List instruction) (s : execution_state) : Prop :=
  s.next_instr = none ∨
    (0 ≤ s.gas_left ∧ ∀ i, s.next_instr = some i → i < instrs.length)

/-- A dispatch step on a well-formed program preserves `running_inv`. -/
theorem step_preserves_running_inv (instrs : List instruction) (hwf : wf_program instrs)
    (s : execution_state) (i : Nat) (instr : instruction) (hinv : running_inv instrs s)
    (hcur : s.next_instr = some i) (hget : instrs[i]? = some instr) :
    running_inv instrs (instr.fn { s with next_instr := some (i + 1) } instr.arg) := by
  rcases hinv with hnone | ⟨hg, hbound⟩
  · rw [hnone] at hcur
    cases hcur
  · have hilt : i < instrs.length := hbound i hcur
    have hwfi := hwf.instrs_wf instr (List.getElem?_mem hget)
      { s with next_instr := some (i + 1) } hg
    rcases hwfi.2 with hn | hlin | ⟨t, insT, ht, hgetT, _⟩
    · exact Or.inl hn
    · have hlin2 : (instr.fn { s with next_instr := some (i + 1) } instr.arg).next_instr =
          some (i + 1) := hlin
      right
      constructor
      · rcases hwfi.1.2 with hc | hpos
        · rw [hc] at hlin2
          cases hlin2
        · exact hpos
      · intro i2 hi2
        rw [hlin2] at hi2
        injection hi2 with heq
        subst heq
        by_contra hge
        have hieq : i = instrs.length - 1 := by omega
        obtain ⟨last, hlast, hhalts⟩ := hwf.last_halts
        rw [hieq, hlast] at hget
        injection hget with heq2
        subst heq2
        rw [hhalts { s with next_instr := some (i + 1) }] at hlin2
        cases hlin2
    · right
      constructor
      · rcases hwfi.1.2 with hc | hpos
        · rw [hc] at ht
          cases ht
        · exact hpos
      · intro i2 hi2
        rw [ht] at hi2
        injection hi2 with heq
        subst heq
        obtain ⟨hlt, _⟩ := List.getElem?_eq_some_iff.mp hgetT
        exact hlt

/-- Core termination argument for the dispatch loop: on a well-formed
program, from any state satisfying the loop invariant, the loop exits
given enough fuel.  Strong induction on the remaining gas with an inner
induction on the distance from the cursor to the end of the program:
linear flow shortens the distance, a jump lands on a gas-burning
block header, and a burner either halts or strictly decreases the gas. -/
theorem dispatch_loop_terminates_aux (instrs : List instruction) (hwf : wf_program instrs) :
    ∀ n : Nat, ∀ s : execution_state, running_inv instrs s → s.gas_left.toNat ≤ n →
      ∀ k : Nat, (∀ i, s.next_instr = some i → instrs.length - i ≤ k) →
      ∃ fuel f, dispatch_loop instrs fuel s = some f := by
  intro n
  induction n using Nat.strongRecOn with
  | _ n ihn =>
    intro s hs hg k hk
    induction k generalizing s with
    | zero =>
      cases hcur : s.next_instr with
      | none => exact ⟨1, s, by rw [dispatch_loop]; simp [hcur]⟩
      | some i =>
        have hilt : i < instrs.length := by
          rcases hs with hnone | ⟨_, hbound⟩
          · rw [hnone] at hcur; cases hcur
          · exact hbound i hcur
        have := hk i hcur
        omega
    | succ k ihk =>
      cases hcur : s.next_instr with
      | none => exact ⟨1, s, by rw [dispatch_loop]; simp [hcur]⟩
      | some i =>
        have hilt : i < instrs.length := by
          rcases hs with hnone | ⟨_, hbound⟩
          · rw [hnone] at hcur; cases hcur
          · exact hbound i hcur
        have hgpos : 0 ≤ s.gas_left := by
          rcases hs with hnone | ⟨hgp, _⟩
          · rw [hnone] at hcur; cases hcur
          · exact hgp
        have hget : instrs[i]? = some (instrs[i]) := List.getElem?_eq_getElem hilt
        obtain ⟨u, hu⟩ : ∃ u, u =
            (instrs[i]).fn { s with next_instr := some (i + 1) } (instrs[i]).arg := ⟨_, rfl⟩
        have hstep : ∀ fuel, dispatch_loop instrs (fuel + 1) s = dispatch_loop instrs fuel u := by
          intro fuel
          rw [dispatch_loop]
          simp only [hcur, hget, hu]
        have huinv : running_inv instrs u := by
          rw [hu]
          exact step_preserves_running_inv instrs hwf s i (instrs[i]) hs hcur hget
        have hwfi := hwf.instrs_wf (instrs[i]) (List.getElem?_mem hget)
          { s with next_instr := some (i + 1) } hgpos
        have hule : u.gas_left ≤ s.gas_left := by
          rw [hu]
          exact hwfi.1.1
        have hcases : u.next_instr = none ∨ u.next_instr = some (i + 1) ∨
            ∃ t insT, u.next_instr = some t ∧ instrs[t]? = some insT ∧ burns_gas insT := by
          rw [hu]
          exact hwfi.2
        rcases Nat.lt_or_ge u.gas_left.toNat s.gas_left.toNat with hlt | hge
        · obtain ⟨fuel, f, hf⟩ := ihn u.gas_left.toNat (by omega) u huinv (le_refl _)
            instrs.length (fun i2 _ => by omega)
          exact ⟨fuel + 1, f, by rw [hstep fuel]; exact hf⟩
        · rcases hcases with hn | hlin | ⟨t, insT, ht, hgetT, hburn⟩
          · exact ⟨2, u, by rw [hstep 1, dispatch_loop]; simp only [hn]⟩
          · obtain ⟨fuel, f, hf⟩ := ihk u huinv (by omega)
              (fun i2 hi2 => by
                rw [hlin] at hi2
                injection hi2 with heq
                subst heq
                have := hk i hcur
                omega)
            exact ⟨fuel + 1, f, by rw [hstep fuel]; exact hf⟩
          · obtain ⟨v, hv⟩ : ∃ v, v =
                insT.fn { u with next_instr := some (t + 1) } insT.arg := ⟨_, rfl⟩
            have hstep2 : ∀ fuel,
                dispatch_loop instrs (fuel + 1) u = dispatch_loop instrs fuel v := by
              intro fuel
              rw [dispatch_loop]
              simp only [ht, hgetT, hv]
            have hvinv : running_inv instrs v := by
              rw [hv]
              exact step_preserves_running_inv instrs hwf u t insT huinv ht hgetT
            have hupos : 0 ≤ u.gas_left := by
              rcases huinv with hnone | ⟨hgp, _⟩
              · rw [hnone] at ht; cases ht
              · exact hgp
            have hburn2 : v.next_instr = none ∨ v.gas_left < u.gas_left := by
              rw [hv]
              exact hburn { u with next_instr := some (t + 1) }
            rcases hburn2 with hvn | hvlt
            · exact ⟨3, v, by rw [hstep 2, hstep2 1, dispatch_loop]; simp only [hvn]⟩
            · have hwfT := hwf.instrs_wf insT (List.getElem?_mem hgetT)
                { u with next_instr := some (t + 1) } hupos
              have hvrun : v.next_instr = none ∨ 0 ≤ v.gas_left := by
                rw [hv]
                exact hwfT.1.2
              rcases hvrun with hvn | hvpos
              · exact ⟨3, v, by rw [hstep 2, hstep2 1, dispatch_loop]; simp only [hvn]⟩
              · obtain ⟨fuel, f, hf⟩ := ihn v.gas_left.toNat (by omega) v hvinv (le_refl _)
                  instrs.length (fun i2 _ => by omega)
                exact ⟨fuel + 2, f, by rw [hstep (fuel + 1), hstep2 fuel]; exact hf⟩

/-- Claim C4: for every analysis the analyzer produces (modelled from the
spec: non-empty, closed blocks, with the synthetic STOP appended at the
end, every instruction obeying the dispatch contract), the dispatch loop
of `execute` terminates: started on the fresh state of a message with
non-negative gas, the while loop over `next_instr` always reaches a state
with a null cursor. -/
theorem claim_C4 (instrs : List instruction) (hwf : wf_program instrs)
    (msg : evmc_message) (hgas : 0 ≤ msg.gas) :
    ∃ fuel f, dispatch_loop instrs fuel (initial_state msg) = some f ∧
      f.next_instr = none := by
  have hlen : 0 < instrs.length := List.length_pos.mpr hwf.instrs_nonempty
  have hinv : running_inv instrs (initial_state msg) := by
    right
    refine ⟨hgas, ?_⟩
    intro i hi
    have hi2 : some 0 = some i := hi
    injection hi2 with heq
    omega
  obtain ⟨fuel, f, hf⟩ := dispatch_loop_terminates_aux instrs hwf
    (initial_state msg).gas_left.toNat (initial_state msg) hinv (le_refl _)
    instrs.length (fun i _ => by omega)
  exact ⟨fuel, f, hf, dispatch_loop_final_cursor instrs fuel _ f hf⟩

/-- The one-instruction STOP program is a well-formed analysis. -/
theorem stop_program_wf : wf_program [stop_instruction] := by
  refine ⟨by simp, ?_, ⟨stop_instruction, rfl, fun s => rfl⟩⟩
  intro ins hmem
  simp only [List.mem_singleton] at hmem
  subst hmem
  intro s hg
  exact ⟨⟨le_refl _, Or.inl rfl⟩, Or.inl rfl⟩

/-- Witness for `claim_C4`: the STOP-only analysis with zero gas. -/
theorem claim_C4_witness :
    ∃ fuel f, dispatch_loop [stop_instruction] fuel (initial_state ⟨0⟩) = some f ∧
      f.next_instr = none :=
  claim_C4 [stop_instruction] stop_program_wf ⟨0⟩ (le_refl 0)

/-- Claim C6: failures never cross the `execute` boundary out-of-band:
for a well-formed analysis and a message with non-negative gas, `execute`
returns a result (adequate fuel exists), and the status field of that
result is exactly the status of the final execution state, so every
failure materializes only as a status code in the returned result. -/
theorem claim_C6 {Table Rev Code : Type} (op_table : Rev → Table)
    (analyze : Table → Rev → Code → List instruction) (rev : Rev) (msg : evmc_message)
    (code : Code) (hwf : wf_program (analyze (op_table rev) rev code)) (hgas : 0 ≤ msg.gas) :
    ∃ fuel r, execute op_table analyze rev msg code fuel = some r ∧
      ∃ f, dispatch_loop (analyze (op_table rev) rev code) fuel (initial_state msg) = some f ∧
        r = make_result f ∧ r.status = f.status := by
  have hinv : running_inv (analyze (op_table rev) rev code) (initial_state msg) := by
    right
    refine ⟨hgas, ?_⟩
    intro i hi
    have hi2 : some 0 = some i := hi
    injection hi2 with heq
    have hlen : 0 < (analyze (op_table rev) rev code).length :=
      List.length_pos.mpr hwf.instrs_nonempty
    omega
  obtain ⟨fuel, f, hf⟩ := dispatch_loop_terminates_aux (analyze (op_table rev) rev code) hwf
    (initial_state msg).gas_left.toNat (initial_state msg) hinv (le_refl _)
    (analyze (op_table rev) rev code).length (fun i _ => by omega)
  refine ⟨fuel, make_result f, ?_, f, hf, rfl, rfl⟩
  rw [execute, hf]
  rfl

/-- Witness for `claim_C6`: the STOP-only analysis with zero gas. -/
theorem claim_C6_witness :
    ∃ fuel r,
      execute (fun _ : Unit => ()) (fun _ _ _ => [stop_instruction]) () ⟨0⟩ () fuel = some r ∧
      ∃ f, dispatch_loop [stop_instruction] fuel (initial_state ⟨0⟩) = some f ∧
        r = make_result f ∧ r.status = f.status :=
  claim_C6 (fun _ : Unit => ()) (fun _ _ _ => [stop_instruction]) () ⟨0⟩ ()
    stop_program_wf (le_refl 0)
